import Mathlib

/-!
Verification of `DeallocatingVector.h` (OSRM): a segmented vector that
stores its elements in fixed-capacity heap blocks (`ELEMENTS_PER_BLOCK`
elements each, written `B` below) and offers, besides ordinary
random-access iteration, a destructive forward iterator that frees each
block as the cursor leaves it.

The embedding models the `std::vector<ElementT *> bucket_list` as a
`List (Bucket α)`: each entry is either a null pointer, a live pointer to
a block of `B` element slots (a slot holds `none` until it is written,
standing for default-initialized / indeterminate storage), or a dangling
pointer — a pointer whose block has been `delete[]`d while the pointer
value itself was left in the vector.  Reading through a null or dangling
pointer is undefined behavior in the source and is modeled as the junk
value `none`.
-/

/-- One entry of the container's `bucket_list` (a `ElementT *` slot). -/
inductive Bucket (α : Type) where
  | null : Bucket α
  | live (data : List (Option α)) : Bucket α
  | dangling : Bucket α
deriving DecidableEq

namespace Bucket

/-- Whether the entry is a pointer to a still-allocated block. -/
def isLive : Bucket α → Bool
  | .live _ => true
  | _ => false

/-- Effect of `delete[]` on a stored pointer: a live block's storage is
freed but the pointer value kept in the vector now dangles; `delete[]`
of a null pointer is a no-op; `delete[]` of a dangling pointer is a
double free (undefined behavior), modeled as leaving it dangling. -/
def release : Bucket α → Bucket α
  | .live _ => .dangling
  | .null => .null
  | .dangling => .dangling

/-- Reading slot `j` through a bucket entry.  A live block yields its
slot content (`none` when the slot was never written); reading through a
null or dangling pointer is undefined behavior, modeled as the junk
value `none`. -/
def read : Bucket α → Nat → Option α
  | .live d, j => (d[j]?).getD none
  | .null, _ => none
  | .dangling, _ => none

/-- Writing value `a` into slot `j` of a bucket entry.  Writing through a
null or dangling pointer is undefined behavior, modeled as lost. -/
def write : Bucket α → Nat → α → Bucket α
  | .live d, j, a => .live (d.set j (some a))
  | .null, _, _ => .null
  | .dangling, _, _ => .dangling

end Bucket

/-- The block freshly produced by `new ElementT[ELEMENTS_PER_BLOCK]`:
`B` slots, none of them written yet. -/
def freshBlock (α : Type) (B : Nat) : Bucket α :=
  .live (List.replicate B none)

/-- Models `DeallocatingVector<ElementT, ELEMENTS_PER_BLOCK>`: the logical
element count and the vector of block pointers.  `B` stands for the
template parameter `ELEMENTS_PER_BLOCK`. -/
structure DeallocatingVector (α : Type) (B : Nat) where
  current_size : Nat
  bucket_list : List (Bucket α)
deriving DecidableEq

namespace DeallocatingVector

variable {α : Type} {B : Nat}

/-- The default constructor: `current_size(0)` and one freshly
allocated block pushed into `bucket_list`. -/
def init (α : Type) (B : Nat) : DeallocatingVector α B :=
  { current_size := 0, bucket_list := [freshBlock α B] }

/-- Models `size()`. -/
def size (v : DeallocatingVector α B) : Nat := v.current_size

/-- Models `capacity()` = `bucket_list.size() * ELEMENTS_PER_BLOCK`. -/
def capacity (v : DeallocatingVector α B) : Nat := v.bucket_list.length * B

/-- Models `bucket_list.back()[j] = a`: writes slot `j` of the last block
pointer in the vector.  `back()` on an empty vector is undefined
behavior, modeled as a lost write. -/
def writeBack (l : List (Bucket α)) (j : Nat) (a : α) : List (Bucket α) :=
  l.set (l.length - 1) ((l.getLast?.getD .dangling).write j a)

/-- Models `push_back(element)`: allocate a new block when full, then write the
element at offset `size() % ELEMENTS_PER_BLOCK` of the last block and
increment `current_size`. -/
def push_back (v : DeallocatingVector α B) (element : α) : DeallocatingVector α B :=
  let current_capacity := v.capacity
  let bl :=
    if v.current_size = current_capacity then v.bucket_list ++ [freshBlock α B]
    else v.bucket_list
  let current_index := v.current_size % B
  { current_size := v.current_size + 1
    bucket_list := writeBack bl current_index element }

/-- Models `emplace_back(element...)`: identical body to `push_back`, the
element being constructed from the forwarded arguments. -/
def emplace_back (v : DeallocatingVector α B) (element : α) : DeallocatingVector α B :=
  let current_capacity := v.capacity
  let bl :=
    if v.current_size = current_capacity then v.bucket_list ++ [freshBlock α B]
    else v.bucket_list
  let current_index := v.current_size % B
  { current_size := v.current_size + 1
    bucket_list := writeBack bl current_index element }

/-- Models `reserve(n)`: the body is empty (`/* don't do anything */`). -/
def reserve (v : DeallocatingVector α B) (n : Nat) : DeallocatingVector α B := v

/-- Models `clear()`: every block pointer is `delete[]`d (the assignment
`bucket = nullptr` in the loop writes only to the loop-local copy), then
`bucket_list.clear()` empties the pointer vector and `current_size`
becomes 0, so the surviving state is the empty one. -/
def clear (v : DeallocatingVector α B) : DeallocatingVector α B :=
  { current_size := 0, bucket_list := [] }

/-- Models `swap(other)`: exchanges `current_size` and `bucket_list`; the pair
is (state of `self` after, state of `other` after). -/
def swapStates (v other : DeallocatingVector α B) :
    DeallocatingVector α B × DeallocatingVector α B :=
  (⟨other.current_size, other.bucket_list⟩, ⟨v.current_size, v.bucket_list⟩)

/-- Models `std::vector::resize(k)` on the pointer vector: truncate to `k`
entries, or pad with value-initialized (null) pointers. -/
def vecResize (l : List (Bucket α)) (k : Nat) : List (Bucket α) :=
  l.take k ++ List.replicate (k - l.length) Bucket.null

/-- The growing loop of `resize`:
`while (capacity() < new_size) bucket_list.push_back(new ElementT[B]);`.
The `0 < B` conjunct only makes the function total: with `B = 0` and
`0 < new_size` the source loop itself never terminates. -/
def growLoop (α : Type) (B new_size : Nat) (l : List (Bucket α)) : List (Bucket α) :=
  if h : 0 < B ∧ l.length * B < new_size then
    growLoop α B new_size (l ++ [freshBlock α B])
  else l
termination_by new_size - l.length * B
decreasing_by
  simp only [List.length_append, List.length_cons, List.length_nil, Nat.add_mul, Nat.one_mul]
  omega

/-- Models `resize(new_size)`: grow by whole blocks until `capacity() ≥
new_size`, or, when shrinking, `delete[]` every held block (leaving the
pointer values dangling) and `resize` the pointer vector to
`1 + new_size / ELEMENTS_PER_BLOCK` entries; finally set
`current_size = new_size`. -/
def resize (v : DeallocatingVector α B) (new_size : Nat) : DeallocatingVector α B :=
  if new_size ≥ v.current_size then
    { current_size := new_size
      bucket_list := growLoop α B new_size v.bucket_list }
  else
    let number_of_necessary_buckets := 1 + new_size / B
    { current_size := new_size
      bucket_list := vecResize (v.bucket_list.map Bucket.release) number_of_necessary_buckets }

/-- Models `operator[](index)`: unchecked access through
`bucket_list[index / B][index % B]`; an out-of-range bucket lookup is
undefined behavior (no check, no signal), modeled as reading through a
dangling pointer. -/
def subscript (v : DeallocatingVector α B) (index : Nat) : Option α :=
  let bkt := index / B
  let idx := index % B
  ((v.bucket_list[bkt]?).getD .dangling).read idx

/-- Models `back()`: reads `bucket_list[current_size / B][current_size % B]` —
note the use of `current_size` itself, not `current_size - 1`. -/
def back (v : DeallocatingVector α B) : Option α :=
  ((v.bucket_list[v.current_size / B]?).getD .dangling).read (v.current_size % B)

end DeallocatingVector

/-- The index mapping: logical index to (block index, offset). -/
def toPosition (B index : Nat) : Nat × Nat := (index / B, index % B)

/-- Unsigned `std::size_t` subtraction: wraps modulo `2^64`. -/
def usub64 (x y : Nat) : Nat :=
  (x % 2 ^ 64 + (2 ^ 64 - y % 2 ^ 64)) % 2 ^ 64

/-- Conversion of a `std::size_t` value to `std::ptrdiff_t`
(two's-complement reinterpretation, as on every mainstream platform). -/
def toPtrdiff (n : Nat) : Int :=
  if n < 2 ^ 63 then (n : Int) else (n : Int) - 2 ^ 64

/-- Models `std::vector::at(i)`: checked lookup, throws `std::out_of_range`
(the `.error` case) when `i` is not a valid position. -/
def vectorAt (l : List (Bucket α)) (i : Nat) : Except Unit (Bucket α) :=
  match l[i]? with
  | some b => .ok b
  | none => .error ()

/-- Non-destructive iterator: a logical index plus the pointed-to
bucket vector (`DeallocatingVectorIteratorState`). -/
structure DeallocatingVectorIterator (α : Type) (B : Nat) where
  index : Nat
  bucket_list : List (Bucket α)

namespace DeallocatingVectorIterator

variable {α : Type} {B : Nat}

/-- Models `distance_to(other)`: `other.current_state.index -
current_state.index`, computed in `std::size_t` and returned as
`std::ptrdiff_t`.  The source comments that the orientation
(other minus this) matters for sorting. -/
def distance_to (self other : DeallocatingVectorIterator α B) : Int :=
  toPtrdiff (usub64 other.index self.index)

/-- Models `dereference()`: checked bucket lookup via `bucket_list->at(...)`,
then a read at the offset. -/
def dereference (self : DeallocatingVectorIterator α B) : Except Unit (Option α) :=
  let current_bucket := self.index / B
  let current_index := self.index % B
  match vectorAt self.bucket_list current_bucket with
  | .ok b => .ok (b.read current_index)
  | .error e => .error e

end DeallocatingVectorIterator

/-- Destructive (deallocating) forward iterator. -/
structure DeallocatingVectorRemoveIterator (α : Type) (B : Nat) where
  index : Nat
  bucket_list : List (Bucket α)

namespace DeallocatingVectorRemoveIterator

variable {α : Type} {B : Nat}

/-- Models `increment()`: advance the logical index by one; when that crosses
into a new bucket, `delete[]` the bucket just vacated (if its pointer is
not null) and null out its slot.  The second component reports which
bucket, if any, was freed by this step.  The `none` fallback of the
lookup marks the case in which `at(old_bucket)` would throw; it cannot
arise while the cursor is in range. -/
def increment (self : DeallocatingVectorRemoveIterator α B) :
    DeallocatingVectorRemoveIterator α B × Option Nat :=
  let old_bucket := self.index / B
  let newIndex := self.index + 1
  let new_bucket := newIndex / B
  if old_bucket ≠ new_bucket then
    match self.bucket_list[old_bucket]? with
    | some Bucket.null => (⟨newIndex, self.bucket_list⟩, none)
    | some _ => (⟨newIndex, self.bucket_list.set old_bucket Bucket.null⟩, some old_bucket)
    | none => (⟨newIndex, self.bucket_list⟩, none)
  else (⟨newIndex, self.bucket_list⟩, none)

/-- Models `dereference()`: identical body to the non-destructive iterator's. -/
def dereference (self : DeallocatingVectorRemoveIterator α B) : Except Unit (Option α) :=
  let current_bucket := self.index / B
  let current_index := self.index % B
  match vectorAt self.bucket_list current_bucket with
  | .ok b => .ok (b.read current_index)
  | .error e => .error e

end DeallocatingVectorRemoveIterator

/-- Run `n` increments of the destructive iterator, collecting the
indices of the buckets freed along the way, in order. -/
def drainRun (α : Type) (B : Nat) :
    Nat → DeallocatingVectorRemoveIterator α B →
    DeallocatingVectorRemoveIterator α B × List Nat
  | 0, it => (it, [])
  | Nat.succ t, it =>
    let step := it.increment
    let rest := drainRun α B t step.1
    (rest.1, step.2.toList ++ rest.2)

/-- Models `dbegin()`: destructive iterator at index 0 over the container's
bucket vector. -/
def DeallocatingVector.dbegin (v : DeallocatingVector α B) :
    DeallocatingVectorRemoveIterator α B :=
  ⟨0, v.bucket_list⟩

/-- The full destructive traversal from `dbegin()` to `dend()`: `size()`
increments of the deallocation iterator starting at index 0. -/
def DeallocatingVector.fullDrain (v : DeallocatingVector α B) :
    DeallocatingVectorRemoveIterator α B × List Nat :=
  drainRun α B v.current_size v.dbegin

/-- Sequence of `push_back` calls. -/
def DeallocatingVector.pushAll (v : DeallocatingVector α B) (ws : List α) :
    DeallocatingVector α B :=
  ws.foldl DeallocatingVector.push_back v

/-- Models `dend()`: destructive iterator positioned at index `size()`;
the full traversal from `dbegin()` to `dend()` therefore performs
`size()` increments. -/
def DeallocatingVector.dend (v : DeallocatingVector α B) :
    DeallocatingVectorRemoveIterator α B :=
  ⟨v.current_size, v.bucket_list⟩

/-- The shape invariant of every state produced by the constructor and
`push_back`: every bucket entry is a live block of `B` slots, at least
one bucket exists, and the element count lies between the capacity of
all buckets but the last and the full capacity. -/
def WellFormed {α : Type} {B : Nat} (v : DeallocatingVector α B) : Prop :=
  (∀ b ∈ v.bucket_list, ∃ d, b = Bucket.live d ∧ d.length = B) ∧
  1 ≤ v.bucket_list.length ∧
  (v.bucket_list.length - 1) * B ≤ v.current_size ∧
  v.current_size ≤ v.bucket_list.length * B

/-- The bucket vector with every entry below `k` nulled out, in
increasing order — the shape left behind by a drain that has crossed `k`
bucket boundaries. -/
def nullifyBelow {α : Type} : Nat → List (Bucket α) → List (Bucket α)
  | 0, l => l
  | k + 1, l => (nullifyBelow k l).set k Bucket.null

/-- States reachable from construction by any sequence of `push_back`,
`emplace_back`, `reserve`, `resize`, `clear`, and `swap` operations
(`swap` can leave a state in either participant, both covered). -/
inductive Reachable {α : Type} {B : Nat} : DeallocatingVector α B → Prop where
  | init : Reachable (DeallocatingVector.init α B)
  | push_back (v : DeallocatingVector α B) (a : α) :
      Reachable v → Reachable (v.push_back a)
  | emplace_back (v : DeallocatingVector α B) (a : α) :
      Reachable v → Reachable (v.emplace_back a)
  | reserve (v : DeallocatingVector α B) (n : Nat) :
      Reachable v → Reachable (v.reserve n)
  | resize (v : DeallocatingVector α B) (n : Nat) :
      Reachable v → Reachable (v.resize n)
  | clear (v : DeallocatingVector α B) :
      Reachable v → Reachable v.clear
  | swapFst (v w : DeallocatingVector α B) :
      Reachable v → Reachable w →
      Reachable (DeallocatingVector.swapStates v w).1
  | swapSnd (v w : DeallocatingVector α B) :
      Reachable v → Reachable w →
      Reachable (DeallocatingVector.swapStates v w).2

/-- A released bucket entry is never a live block. -/
theorem Bucket.isLive_release {α : Type} (b : Bucket α) :
    (Bucket.release b).isLive = false := by
  cases b <;> rfl

section SimpleClaims

variable {α : Type} {B : Nat}

/-- C6: `reserve(n)` is a no-op: it leaves the whole container state —
in particular `size()`, `capacity()`, the block sequence, and every
element read through `operator[]` — unchanged, for every container state
and every argument. -/
theorem reserve_is_noop (v : DeallocatingVector α B) (n : Nat) :
    v.reserve n = v ∧
    (v.reserve n).size = v.size ∧
    (v.reserve n).capacity = v.capacity ∧
    (v.reserve n).bucket_list = v.bucket_list ∧
    ∀ i, (v.reserve n).subscript i = v.subscript i :=
  ⟨rfl, rfl, rfl, rfl, fun _ => rfl⟩

/-- C5: for non-destructive iterators over the same container at logical
indices `a` and `b` (any values representable without `ptrdiff_t`
overflow), `a.distance_to(b)` equals `b - a`: the signed distance is
other minus self. -/
theorem distance_to_is_other_minus_self (a b : Nat) (l : List (Bucket α))
    (ha : a < 2 ^ 63) (hb : b < 2 ^ 63) :
    DeallocatingVectorIterator.distance_to (B := B) ⟨a, l⟩ ⟨b, l⟩ = (b : Int) - (a : Int) := by
  show toPtrdiff (usub64 b a) = (b : Int) - (a : Int)
  unfold usub64 toPtrdiff
  split <;> omega

/-- C5 witness: iterators at indices 1 and 5 are at distance `5 - 1`. -/
theorem distance_to_witness :
    1 < 2 ^ 63 ∧ 5 < 2 ^ 63 ∧
    DeallocatingVectorIterator.distance_to (α := Nat) (B := 2) ⟨1, []⟩ ⟨5, []⟩ =
      (5 : Int) - (1 : Int) :=
  ⟨by decide, by decide,
    distance_to_is_other_minus_self 1 5 [] (by decide) (by decide)⟩

/-- C9: for a container with `size() = n > 0`, `back()` reads the slot
at position `(n / B, n % B)` — the slot one past the final stored
element — and that position differs from the position `(n-1) / B,
(n-1) % B` of the last stored element. -/
theorem back_reads_one_past_last (v : DeallocatingVector α B)
    (hB : 0 < B) (hn : 0 < v.current_size) :
    v.back = ((v.bucket_list[(toPosition B v.current_size).1]?).getD .dangling).read
      (toPosition B v.current_size).2 ∧
    toPosition B v.current_size ≠ toPosition B (v.current_size - 1) := by
  refine ⟨rfl, fun h => ?_⟩
  have h1 : v.current_size / B = (v.current_size - 1) / B := congrArg Prod.fst h
  have h2 : v.current_size % B = (v.current_size - 1) % B := congrArg Prod.snd h
  have e1 := Nat.div_add_mod v.current_size B
  have e2 := Nat.div_add_mod (v.current_size - 1) B
  rw [← h1, ← h2] at e2
  have h3 : v.current_size = v.current_size - 1 := e1.symm.trans e2
  omega

/-- C9 witness: a one-element container with block size 2: `back()`
reads position (0, 1), not position (0, 0) of the stored element. -/
theorem back_witness :
    0 < 2 ∧ 0 < (DeallocatingVector.mk 1 [Bucket.live [some 7, none]] :
      DeallocatingVector Nat 2).current_size ∧
    ((DeallocatingVector.mk 1 [Bucket.live [some 7, none]] :
        DeallocatingVector Nat 2).back =
      (((DeallocatingVector.mk 1 [Bucket.live [some 7, none]] :
          DeallocatingVector Nat 2).bucket_list[(toPosition 2 1).1]?).getD .dangling).read
        (toPosition 2 1).2 ∧
      toPosition 2 1 ≠ toPosition 2 0) :=
  ⟨by decide, by decide,
    back_reads_one_past_last (DeallocatingVector.mk 1 [Bucket.live [some 7, none]])
      (by decide) (by decide)⟩

/-- C10: when the logical index maps to a bucket position at or past the
end of the bucket vector, both iterator families' `dereference` (which
go through the checked `at`) signal out-of-range, while `operator[]`
performs no check: its result type carries no failure signal, and at the
same index it silently produces the junk value of a read through an
invalid pointer. -/
theorem dereference_checked_subscript_unchecked (v : DeallocatingVector α B)
    (index : Nat) (h : v.bucket_list.length ≤ index / B) :
    DeallocatingVectorIterator.dereference (B := B) ⟨index, v.bucket_list⟩ = .error () ∧
    DeallocatingVectorRemoveIterator.dereference (B := B) ⟨index, v.bucket_list⟩ = .error () ∧
    v.subscript index = Bucket.read Bucket.dangling (index % B) := by
  have hnone : v.bucket_list[index / B]? = none := List.getElem?_eq_none h
  refine ⟨?_, ?_, ?_⟩ <;>
    simp [DeallocatingVectorIterator.dereference,
      DeallocatingVectorRemoveIterator.dereference,
      DeallocatingVector.subscript, vectorAt, hnone, Bucket.read]

/-- C10 witness: one-block container, index 2 with block size 2 maps to
bucket 1, past the single bucket slot. -/
theorem dereference_witness :
    (DeallocatingVector.mk 1 [Bucket.live [some 7, none]] :
        DeallocatingVector Nat 2).bucket_list.length ≤ 2 / 2 ∧
    (DeallocatingVectorIterator.dereference (B := 2)
        ⟨2, (DeallocatingVector.mk 1 [Bucket.live [some 7, none]] :
          DeallocatingVector Nat 2).bucket_list⟩ = .error () ∧
      DeallocatingVectorRemoveIterator.dereference (B := 2)
        ⟨2, (DeallocatingVector.mk 1 [Bucket.live [some 7, none]] :
          DeallocatingVector Nat 2).bucket_list⟩ = .error () ∧
      (DeallocatingVector.mk 1 [Bucket.live [some 7, none]] :
        DeallocatingVector Nat 2).subscript 2 = Bucket.read Bucket.dangling (2 % 2)) :=
  ⟨by decide,
    dereference_checked_subscript_unchecked
      (DeallocatingVector.mk 1 [Bucket.live [some 7, none]]) 2 (by decide)⟩

end SimpleClaims

section PushClaims

variable {α : Type} {B : Nat}

/-- Logical positions are uniquely determined by (bucket, offset). -/
theorem position_inj {B i j : Nat} (h1 : i / B = j / B) (h2 : i % B = j % B) :
    i = j := by
  have e1 := Nat.div_add_mod i B
  have e2 := Nat.div_add_mod j B
  rw [h1, h2] at e1
  exact e1.symm.trans e2

theorem wellFormed_init (α : Type) (B : Nat) : WellFormed (DeallocatingVector.init α B) := by
  refine ⟨?_, by simp [DeallocatingVector.init], by simp [DeallocatingVector.init], by
    simp [DeallocatingVector.init]⟩
  intro b hb
  simp [DeallocatingVector.init, freshBlock] at hb
  exact ⟨_, hb, by simp⟩

/-- Effect of one `push_back` on a well-formed container: the invariant
is preserved, the size grows by one, the new element is readable at the
old size, and every previously readable index is untouched. -/
theorem push_back_spec (hB : 0 < B) (v : DeallocatingVector α B)
    (hwf : WellFormed v) (a : α) :
    WellFormed (v.push_back a) ∧
    (v.push_back a).current_size = v.current_size + 1 ∧
    (v.push_back a).subscript v.current_size = some a ∧
    ∀ i, i < v.current_size → (v.push_back a).subscript i = v.subscript i := by
  obtain ⟨n, l⟩ := v
  obtain ⟨hlive, hlen1, hlow, hhigh⟩ := hwf
  simp only [DeallocatingVector.current_size] at hlow hhigh ⊢
  simp only [DeallocatingVector.bucket_list] at hlive hlen1 hlow hhigh
  by_cases heq : n = l.length * B
  · -- the current block is full: a fresh block is allocated first
    have hmod : n % B = 0 := by rw [heq]; exact Nat.mul_mod_left _ _
    have hdiv : n / B = l.length := by rw [heq]; exact Nat.mul_div_cancel _ hB
    have hres : DeallocatingVector.push_back (B := B) ⟨n, l⟩ a =
        ⟨n + 1, (l ++ [freshBlock α B]).set l.length
          (Bucket.live ((List.replicate B none).set 0 (some a)))⟩ := by
      simp only [DeallocatingVector.push_back, DeallocatingVector.capacity,
        DeallocatingVector.writeBack, DeallocatingVector.bucket_list,
        DeallocatingVector.current_size]
      rw [if_pos heq, hmod, List.getLast?_concat]
      simp [freshBlock, Bucket.write]
    rw [hres]
    refine ⟨⟨?_, ?_, ?_, ?_⟩, rfl, ?_, ?_⟩
    · intro b hb
      rcases List.mem_or_eq_of_mem_set hb with hb' | hb'
      · rcases List.mem_append.mp hb' with hb'' | hb''
        · exact hlive b hb''
        · simp only [List.mem_singleton] at hb''
          exact ⟨_, by rw [hb'']; rfl, by simp⟩
      · exact ⟨_, hb', by simp⟩
    · simp
    · simp only [DeallocatingVector.current_size, DeallocatingVector.bucket_list,
        List.length_set, List.length_append, List.length_singleton, Nat.add_sub_cancel]
      omega
    · simp only [DeallocatingVector.current_size, DeallocatingVector.bucket_list,
        List.length_set, List.length_append, List.length_singleton, Nat.add_mul, Nat.one_mul]
      omega
    · -- reading back the element just written
      simp only [DeallocatingVector.subscript, DeallocatingVector.bucket_list, hdiv, hmod]
      have hlt : l.length < ((l ++ [freshBlock α B])).length := by simp
      rw [List.getElem?_set_self (by simpa using hlt)]
      simp [Bucket.read, List.getElem?_set_self, hB]
    · -- older indices are untouched
      intro i hi
      have hqi : i / B < l.length := by
        rw [Nat.div_lt_iff_lt_mul hB]; omega
      simp only [DeallocatingVector.subscript, DeallocatingVector.bucket_list]
      rw [List.getElem?_set_ne (by omega), List.getElem?_append_left hqi]
  · -- room in the last block: no allocation happens
    have hlt : n < l.length * B := by omega
    have hdiv : n / B = l.length - 1 := by
      apply Nat.div_eq_of_lt_le hlow
      have : l.length - 1 + 1 = l.length := by omega
      rw [this]; exact hlt
    have hlast : ∃ d, l[l.length - 1]? = some (Bucket.live d) ∧ d.length = B := by
      have hl : l.length - 1 < l.length := by omega
      have hsome : l[l.length - 1]? = some l[l.length - 1] := List.getElem?_eq_getElem hl
      obtain ⟨d, hd, hdl⟩ := hlive _ (List.getElem?_mem hsome)
      exact ⟨d, by rw [hsome, hd], hdl⟩
    obtain ⟨d, hd, hdl⟩ := hlast
    have hres : DeallocatingVector.push_back (B := B) ⟨n, l⟩ a =
        ⟨n + 1, l.set (l.length - 1) (Bucket.live (d.set (n % B) (some a)))⟩ := by
      simp only [DeallocatingVector.push_back, DeallocatingVector.capacity,
        DeallocatingVector.writeBack, DeallocatingVector.bucket_list,
        DeallocatingVector.current_size]
      rw [if_neg heq, List.getLast?_eq_getElem?, hd]
      simp [Bucket.write]
    rw [hres]
    refine ⟨⟨?_, ?_, ?_, ?_⟩, rfl, ?_, ?_⟩
    · intro b hb
      rcases List.mem_or_eq_of_mem_set hb with hb' | hb'
      · exact hlive b hb'
      · exact ⟨_, hb', by simp [hdl]⟩
    · simpa using hlen1
    · simp only [DeallocatingVector.current_size, DeallocatingVector.bucket_list,
        List.length_set]
      omega
    · simp only [DeallocatingVector.current_size, DeallocatingVector.bucket_list,
        List.length_set]
      omega
    · -- reading back the element just written
      simp only [DeallocatingVector.subscript, DeallocatingVector.bucket_list, hdiv]
      rw [List.getElem?_set_self (by simp; omega)]
      have hmodlt : n % B < d.length := by rw [hdl]; exact Nat.mod_lt _ hB
      simp [Bucket.read, List.getElem?_set_self hmodlt]
    · -- older indices are untouched
      intro i hi
      simp only [DeallocatingVector.subscript, DeallocatingVector.bucket_list]
      by_cases hqi : i / B = l.length - 1
      · -- same bucket as the write: the offsets must differ
        have hri : i % B ≠ n % B := by
          intro hri
          exact absurd (position_inj (hqi.trans hdiv.symm) hri) (by omega)
        rw [hqi, List.getElem?_set_self (by omega), hd]
        simp only [Option.getD_some, Bucket.read]
        rw [List.getElem?_set_ne (fun h => hri h.symm)]
      · rw [List.getElem?_set_ne (fun h => hqi h.symm)]

/-- Accumulated effect of a sequence of `push_back` calls on a
well-formed container. -/
theorem pushAll_spec (hB : 0 < B) (ws : List α) :
    ∀ v : DeallocatingVector α B, WellFormed v →
    WellFormed (v.pushAll ws) ∧
    (v.pushAll ws).current_size = v.current_size + ws.length ∧
    (∀ i, i < v.current_size → (v.pushAll ws).subscript i = v.subscript i) ∧
    (∀ j, (hj : j < ws.length) →
      (v.pushAll ws).subscript (v.current_size + j) = some (ws.get ⟨j, hj⟩)) := by
  induction ws with
  | nil =>
    intro v hwf
    exact ⟨hwf, by simp [DeallocatingVector.pushAll], fun i _ => rfl,
      fun j hj => absurd hj (by simp)⟩
  | cons a ws ih =>
    intro v hwf
    obtain ⟨hwf', hsz, hnew, hold⟩ := push_back_spec hB v hwf a
    obtain ⟨ihwf, ihsz, ihold, ihnew⟩ := ih (v.push_back a) hwf'
    have hPA : v.pushAll (a :: ws) = (v.push_back a).pushAll ws := rfl
    rw [hPA]
    refine ⟨ihwf, ?_, ?_, ?_⟩
    · rw [ihsz, hsz]
      simp [Nat.add_assoc, Nat.add_comm 1]
    · intro i hi
      exact (ihold i (by rw [hsz]; omega)).trans (hold i hi)
    · intro j hj
      cases j with
      | zero =>
        have h0 := (ihold v.current_size (by rw [hsz]; omega)).trans hnew
        simpa using h0
      | succ j' =>
        have hj' : j' < ws.length := by simpa using hj
        have h1 := ihnew j' hj'
        rw [hsz] at h1
        have harith : v.current_size + 1 + j' = v.current_size + (j' + 1) := by omega
        rw [harith] at h1
        simpa using h1

/-- C3: after `N` consecutive `push_back` calls with values
`v_0 .. v_{N-1}` on a freshly constructed container, `size()` equals `N`
and `operator[](i)` returns `v_i` for every `i < N`. -/
theorem push_back_sequence_correct (hB : 0 < B) (ws : List α) :
    ((DeallocatingVector.init α B).pushAll ws).size = ws.length ∧
    ∀ j, (hj : j < ws.length) →
      ((DeallocatingVector.init α B).pushAll ws).subscript j = some (ws.get ⟨j, hj⟩) := by
  obtain ⟨_, hsz, _, hnew⟩ :=
    pushAll_spec hB ws (DeallocatingVector.init α B) (wellFormed_init α B)
  refine ⟨?_, ?_⟩
  · rw [DeallocatingVector.size, hsz]
    simp [DeallocatingVector.init]
  · intro j hj
    have h1 := hnew j hj
    simpa [DeallocatingVector.init] using h1

/-- C3 witness: pushing 4, 5, 6 with block size 2 gives size 3 and the
pushed values at indices 0, 1, 2. -/
theorem push_back_sequence_witness :
    0 < 2 ∧
    (((DeallocatingVector.init Nat 2).pushAll [4, 5, 6]).size = 3 ∧
      ∀ j, (hj : j < ([4, 5, 6] : List Nat).length) →
        ((DeallocatingVector.init Nat 2).pushAll [4, 5, 6]).subscript j =
          some (([4, 5, 6] : List Nat).get ⟨j, hj⟩)) :=
  ⟨by decide, push_back_sequence_correct (B := 2) (by decide) [4, 5, 6]⟩

/-- C8: `clear()` leaves `size() == 0` and `capacity() == 0` with the
block sequence emptied, and a subsequent `push_back(v)` allocates a
single fresh block and leaves `size() == 1` with `operator[](0) == v`. -/
theorem clear_then_push_back (hB : 0 < B) (v : DeallocatingVector α B) (a : α) :
    v.clear.size = 0 ∧ v.clear.capacity = 0 ∧ v.clear.bucket_list = [] ∧
    (v.clear.push_back a).bucket_list.length = 1 ∧
    (v.clear.push_back a).size = 1 ∧
    (v.clear.push_back a).subscript 0 = some a := by
  refine ⟨rfl, by simp [DeallocatingVector.clear, DeallocatingVector.capacity], rfl, ?_, rfl, ?_⟩
  · simp [DeallocatingVector.clear, DeallocatingVector.push_back,
      DeallocatingVector.capacity, DeallocatingVector.writeBack]
  · simp [DeallocatingVector.clear, DeallocatingVector.push_back,
      DeallocatingVector.capacity, DeallocatingVector.writeBack,
      DeallocatingVector.subscript, freshBlock, Bucket.write, Bucket.read,
      List.getElem?_set_self, hB]

/-- C8 witness: clearing a one-element container with block size 2 and
pushing 9 afterwards. -/
theorem clear_then_push_back_witness :
    0 < 2 ∧
    ((DeallocatingVector.mk 1 [Bucket.live [some 7, none]] :
        DeallocatingVector Nat 2).clear.size = 0 ∧
      (DeallocatingVector.mk 1 [Bucket.live [some 7, none]] :
        DeallocatingVector Nat 2).clear.capacity = 0 ∧
      (DeallocatingVector.mk 1 [Bucket.live [some 7, none]] :
        DeallocatingVector Nat 2).clear.bucket_list = [] ∧
      ((DeallocatingVector.mk 1 [Bucket.live [some 7, none]] :
        DeallocatingVector Nat 2).clear.push_back 9).bucket_list.length = 1 ∧
      ((DeallocatingVector.mk 1 [Bucket.live [some 7, none]] :
        DeallocatingVector Nat 2).clear.push_back 9).size = 1 ∧
      ((DeallocatingVector.mk 1 [Bucket.live [some 7, none]] :
        DeallocatingVector Nat 2).clear.push_back 9).subscript 0 = some 9) :=
  ⟨by decide,
    clear_then_push_back (by decide)
      (DeallocatingVector.mk 1 [Bucket.live [some 7, none]]) 9⟩

end PushClaims

section ResizeClaims

variable {α : Type} {B : Nat}

/-- The grow loop only appends buckets, and every appended bucket is a
freshly allocated block. -/
theorem growLoop_append (B n : Nat) (l : List (Bucket α)) :
    ∃ ext : List (Bucket α),
      DeallocatingVector.growLoop α B n l = l ++ ext ∧ ∀ b ∈ ext, b = freshBlock α B := by
  induction l using DeallocatingVector.growLoop.induct α B n with
  | case1 l h ih =>
    obtain ⟨ext, hext, hall⟩ := ih
    rw [DeallocatingVector.growLoop, dif_pos h, hext]
    refine ⟨freshBlock α B :: ext, by simp, ?_⟩
    intro b hb
    rcases List.mem_cons.mp hb with hb | hb
    · exact hb
    · exact hall b hb
  | case2 l h =>
    rw [DeallocatingVector.growLoop, dif_neg h]
    exact ⟨[], by simp, by simp⟩

/-- When the loop stops, the capacity covers the requested size. -/
theorem growLoop_capacity (B n : Nat) (hB : 0 < B) (l : List (Bucket α)) :
    n ≤ (DeallocatingVector.growLoop α B n l).length * B := by
  induction l using DeallocatingVector.growLoop.induct α B n with
  | case1 l h ih => rw [DeallocatingVector.growLoop, dif_pos h]; exact ih
  | case2 l h =>
    rw [DeallocatingVector.growLoop, dif_neg h]
    push_neg at h
    exact Nat.le_of_not_lt (fun hc => absurd (h hB) (Nat.not_le_of_lt hc))

/-- Growing never disturbs a read at any logical index: old buckets are
untouched and the appended blocks read as unwritten storage. -/
theorem growLoop_read (hB : 0 < B) (n : Nat) (l : List (Bucket α)) (i : Nat) :
    (((DeallocatingVector.growLoop α B n l)[i / B]?).getD .dangling).read (i % B) =
    ((l[i / B]?).getD .dangling).read (i % B) := by
  obtain ⟨ext, hext, hall⟩ := growLoop_append B n l
  rw [hext]
  by_cases hq : i / B < l.length
  · rw [List.getElem?_append_left hq]
  · push_neg at hq
    rw [List.getElem?_append_right hq, List.getElem?_eq_none hq]
    cases hext2 : ext[i / B - l.length]? with
    | none => simp [Bucket.read]
    | some b =>
      have hb := hall b (List.getElem?_mem hext2)
      subst hb
      simp only [Option.getD_some, Option.getD_none, freshBlock, Bucket.read,
        List.getElem?_replicate]
      split <;> simp

/-- C7: for `new_size ≥` the current element count, `resize(new_size)`
preserves the value read by `operator[](i)` for every `i` below the old
size, and afterwards `size() == new_size` and `capacity() ≥ new_size`. -/
theorem resize_grow_preserves (hB : 0 < B) (v : DeallocatingVector α B) (n : Nat)
    (h : v.current_size ≤ n) :
    (v.resize n).current_size = n ∧
    n ≤ (v.resize n).capacity ∧
    ∀ i, i < v.current_size → (v.resize n).subscript i = v.subscript i := by
  have hres : v.resize n =
      ⟨n, DeallocatingVector.growLoop α B n v.bucket_list⟩ := by
    rw [DeallocatingVector.resize, if_pos h]
  rw [hres]
  refine ⟨rfl, ?_, ?_⟩
  · simpa [DeallocatingVector.capacity] using growLoop_capacity B n hB v.bucket_list
  · intro i hi
    simp only [DeallocatingVector.subscript, DeallocatingVector.bucket_list]
    exact growLoop_read hB n v.bucket_list i

/-- C7 witness: growing a one-element container (block size 2) to five
elements keeps the element at index 0. -/
theorem resize_grow_witness :
    0 < 2 ∧
    (DeallocatingVector.mk 1 [Bucket.live [some 4, none]] :
      DeallocatingVector Nat 2).current_size ≤ 5 ∧
    (((DeallocatingVector.mk 1 [Bucket.live [some 4, none]] :
        DeallocatingVector Nat 2).resize 5).current_size = 5 ∧
      5 ≤ ((DeallocatingVector.mk 1 [Bucket.live [some 4, none]] :
        DeallocatingVector Nat 2).resize 5).capacity ∧
      ∀ i, i < (DeallocatingVector.mk 1 [Bucket.live [some 4, none]] :
          DeallocatingVector Nat 2).current_size →
        ((DeallocatingVector.mk 1 [Bucket.live [some 4, none]] :
          DeallocatingVector Nat 2).resize 5).subscript i =
        (DeallocatingVector.mk 1 [Bucket.live [some 4, none]] :
          DeallocatingVector Nat 2).subscript i) :=
  ⟨by decide, by decide,
    resize_grow_preserves (by decide)
      (DeallocatingVector.mk 1 [Bucket.live [some 4, none]]) 5 (by decide)⟩

/-- Division bound used by the shrink path: `new_size` always fits in
`1 + new_size / B` blocks. -/
theorem lt_one_add_div_mul (hB : 0 < B) (n : Nat) : n < (1 + n / B) * B := by
  have h1 := Nat.div_add_mod n B
  have h2 := Nat.mod_lt n hB
  calc n = B * (n / B) + n % B := h1.symm
    _ < B * (n / B) + B := by omega
    _ = (1 + n / B) * B := by ring

/-- After `std::vector::resize` the vector has the requested length. -/
theorem vecResize_length (l : List (Bucket α)) (k : Nat) :
    (DeallocatingVector.vecResize l k).length = k := by
  simp [DeallocatingVector.vecResize]
  omega

/-- C2 corrected: for `new_size < element_count` (on a container whose
size fits in its capacity), `resize(new_size)` sets
`element_count = new_size` and `delete[]`s every currently held block,
but it does NOT allocate fresh blocks: the bucket vector is merely
truncated to `1 + new_size / B` entries (not the `⌈new_size / B⌉`
blocks needed to cover `new_size`), each entry still holding the stale,
now-released pointer value, so no live block remains. -/
theorem resize_shrink_releases_without_realloc (hB : 0 < B)
    (v : DeallocatingVector α B) (n : Nat) (h : n < v.current_size)
    (hcap : v.current_size ≤ v.capacity) :
    (v.resize n).current_size = n ∧
    (v.resize n).bucket_list.length = 1 + n / B ∧
    (∀ j, j < 1 + n / B →
      (v.resize n).bucket_list[j]? = (v.bucket_list[j]?).map Bucket.release) ∧
    ∀ b ∈ (v.resize n).bucket_list, b.isLive = false := by
  have hk : 1 + n / B ≤ v.bucket_list.length := by
    have hq : n / B < v.bucket_list.length := by
      rw [Nat.div_lt_iff_lt_mul hB]
      exact Nat.lt_of_lt_of_le h hcap
    omega
  have hres : v.resize n =
      ⟨n, DeallocatingVector.vecResize (v.bucket_list.map Bucket.release) (1 + n / B)⟩ := by
    rw [DeallocatingVector.resize, if_neg (by omega)]
  rw [hres]
  refine ⟨rfl, vecResize_length _ _, ?_, ?_⟩
  · intro j hj
    have hlen : (v.bucket_list.map Bucket.release).length = v.bucket_list.length := by simp
    simp only [DeallocatingVector.bucket_list, DeallocatingVector.vecResize, hlen]
    rw [Nat.sub_eq_zero_of_le (by omega), List.replicate_zero, List.append_nil,
      List.getElem?_take_of_lt hj, List.getElem?_map]
  · intro b hb
    simp only [DeallocatingVector.bucket_list, DeallocatingVector.vecResize] at hb
    rcases List.mem_append.mp hb with hb' | hb'
    · obtain ⟨c, _, hc⟩ := List.mem_map.mp (List.mem_of_mem_take hb')
      rw [← hc]
      exact Bucket.isLive_release c
    · rw [List.eq_of_mem_replicate hb']
      rfl

/-- C2 counterexample: with `B = 2` and four stored elements,
`resize(2)` keeps 2 bucket entries — not the 1 block that suffices to
cover 2 elements — and none of them is a freshly allocated (live) block:
both are the released, stale pointers. -/
theorem resize_shrink_counterexample :
    ¬ (((DeallocatingVector.mk 4
          [Bucket.live [some 1, some 2], Bucket.live [some 3, some 4]] :
          DeallocatingVector Nat 2).resize 2).bucket_list.length = 1 ∧
        ∀ b ∈ ((DeallocatingVector.mk 4
          [Bucket.live [some 1, some 2], Bucket.live [some 3, some 4]] :
          DeallocatingVector Nat 2).resize 2).bucket_list, b.isLive = true) := by
  decide

/-- C2 witness: the same concrete shrink, through the general theorem. -/
theorem resize_shrink_witness :
    0 < 2 ∧
    2 < (DeallocatingVector.mk 4
      [Bucket.live [some 1, some 2], Bucket.live [some 3, some 4]] :
      DeallocatingVector Nat 2).current_size ∧
    (DeallocatingVector.mk 4
      [Bucket.live [some 1, some 2], Bucket.live [some 3, some 4]] :
      DeallocatingVector Nat 2).current_size ≤
      (DeallocatingVector.mk 4
        [Bucket.live [some 1, some 2], Bucket.live [some 3, some 4]] :
        DeallocatingVector Nat 2).capacity ∧
    (((DeallocatingVector.mk 4
        [Bucket.live [some 1, some 2], Bucket.live [some 3, some 4]] :
        DeallocatingVector Nat 2).resize 2).current_size = 2 ∧
      ((DeallocatingVector.mk 4
        [Bucket.live [some 1, some 2], Bucket.live [some 3, some 4]] :
        DeallocatingVector Nat 2).resize 2).bucket_list.length = 1 + 2 / 2 ∧
      (∀ j, j < 1 + 2 / 2 →
        ((DeallocatingVector.mk 4
          [Bucket.live [some 1, some 2], Bucket.live [some 3, some 4]] :
          DeallocatingVector Nat 2).resize 2).bucket_list[j]? =
          ((DeallocatingVector.mk 4
            [Bucket.live [some 1, some 2], Bucket.live [some 3, some 4]] :
            DeallocatingVector Nat 2).bucket_list[j]?).map Bucket.release) ∧
      ∀ b ∈ ((DeallocatingVector.mk 4
          [Bucket.live [some 1, some 2], Bucket.live [some 3, some 4]] :
          DeallocatingVector Nat 2).resize 2).bucket_list, b.isLive = false) :=
  ⟨by decide, by decide, by decide,
    resize_shrink_releases_without_realloc (by decide)
      (DeallocatingVector.mk 4
        [Bucket.live [some 1, some 2], Bucket.live [some 3, some 4]]) 2
      (by decide) (by decide)⟩

end ResizeClaims

section InvariantClaim

variable {α : Type} {B : Nat}

/-- One `push_back` keeps the size within the capacity. -/
theorem push_back_size_le_capacity (hB : 0 < B) (v : DeallocatingVector α B)
    (a : α) (h : v.size ≤ v.capacity) :
    (v.push_back a).size ≤ (v.push_back a).capacity := by
  obtain ⟨n, l⟩ := v
  simp only [DeallocatingVector.size, DeallocatingVector.capacity,
    DeallocatingVector.current_size, DeallocatingVector.bucket_list] at h ⊢
  by_cases heq : n = l.length * B
  · simp only [DeallocatingVector.push_back, DeallocatingVector.capacity,
      DeallocatingVector.writeBack, DeallocatingVector.current_size,
      DeallocatingVector.bucket_list, if_pos heq, List.length_set,
      List.length_append, List.length_singleton, Nat.add_mul, Nat.one_mul]
    omega
  · simp only [DeallocatingVector.push_back, DeallocatingVector.capacity,
      DeallocatingVector.writeBack, DeallocatingVector.current_size,
      DeallocatingVector.bucket_list, if_neg heq, List.length_set]
    omega

/-- In the source, `emplace_back` has the same body as `push_back`. -/
theorem emplace_back_eq_push_back (v : DeallocatingVector α B) (a : α) :
    v.emplace_back a = v.push_back a := rfl

/-- C4: in every state reachable from construction by `push_back`,
`emplace_back`, `reserve`, `resize`, `clear`, and `swap`, `capacity()`
is an exact multiple of `ELEMENTS_PER_BLOCK` and `capacity() ≥ size()`. -/
theorem reachable_capacity_invariant (hB : 0 < B) (v : DeallocatingVector α B)
    (hr : Reachable v) : B ∣ v.capacity ∧ v.size ≤ v.capacity := by
  refine ⟨⟨v.bucket_list.length, by rw [DeallocatingVector.capacity, Nat.mul_comm]⟩, ?_⟩
  induction hr with
  | init =>
    simp [DeallocatingVector.init, DeallocatingVector.size, DeallocatingVector.capacity]
  | push_back v a hv ih => exact push_back_size_le_capacity hB v a ih
  | emplace_back v a hv ih =>
    rw [emplace_back_eq_push_back]
    exact push_back_size_le_capacity hB v a ih
  | reserve v n hv ih => exact ih
  | resize v n hv ih =>
    by_cases h : n ≥ v.current_size
    · have hres : v.resize n =
          ⟨n, DeallocatingVector.growLoop α B n v.bucket_list⟩ := by
        rw [DeallocatingVector.resize, if_pos h]
      rw [hres]
      simpa [DeallocatingVector.size, DeallocatingVector.capacity] using
        growLoop_capacity B n hB v.bucket_list
    · have hres : v.resize n =
          ⟨n, DeallocatingVector.vecResize (v.bucket_list.map Bucket.release)
            (1 + n / B)⟩ := by
        rw [DeallocatingVector.resize, if_neg h]
      rw [hres]
      simp only [DeallocatingVector.size, DeallocatingVector.capacity,
        DeallocatingVector.current_size, DeallocatingVector.bucket_list,
        vecResize_length]
      exact Nat.le_of_lt (lt_one_add_div_mul hB n)
  | clear v hv ih =>
    simp [DeallocatingVector.clear, DeallocatingVector.size, DeallocatingVector.capacity]
  | swapFst v w hv hw ihv ihw => exact ihw
  | swapSnd v w hv hw ihv ihw => exact ihv

/-- C4 witness: a state reached by one push and a growing resize. -/
theorem reachable_capacity_witness :
    0 < 2 ∧
    Reachable (((DeallocatingVector.init Nat 2).push_back 5).resize 3) ∧
    (2 ∣ (((DeallocatingVector.init Nat 2).push_back 5).resize 3).capacity ∧
      (((DeallocatingVector.init Nat 2).push_back 5).resize 3).size ≤
        (((DeallocatingVector.init Nat 2).push_back 5).resize 3).capacity) :=
  ⟨by decide,
    Reachable.resize _ 3 (Reachable.push_back _ 5 Reachable.init),
    reachable_capacity_invariant (by decide) _
      (Reachable.resize _ 3 (Reachable.push_back _ 5 Reachable.init))⟩

end InvariantClaim

section DrainClaim

variable {α : Type} {B : Nat}

theorem nullifyBelow_length (k : Nat) (l : List (Bucket α)) :
    (nullifyBelow k l).length = l.length := by
  induction k with
  | zero => rfl
  | succ k ih => simp [nullifyBelow, ih]

theorem nullifyBelow_getElem?_ge (k j : Nat) (l : List (Bucket α)) (hj : k ≤ j) :
    (nullifyBelow k l)[j]? = l[j]? := by
  induction k with
  | zero => rfl
  | succ k ih =>
    rw [nullifyBelow, List.getElem?_set_ne (by omega)]
    exact ih (by omega)

theorem nullifyBelow_getElem?_lt (k j : Nat) (l : List (Bucket α))
    (hj : j < k) (hjl : j < l.length) :
    (nullifyBelow k l)[j]? = some Bucket.null := by
  induction k with
  | zero => omega
  | succ k ih =>
    by_cases hjk : j = k
    · subst hjk
      rw [nullifyBelow, List.getElem?_set_self (by rw [nullifyBelow_length]; exact hjl)]
    · rw [nullifyBelow, List.getElem?_set_ne (by omega)]
      exact ih (by omega)

/-- Peeling the last step off a run of destructive increments. -/
theorem drainRun_succ (t : Nat) (it : DeallocatingVectorRemoveIterator α B) :
    drainRun α B (t + 1) it =
      ((drainRun α B t it).1.increment.1,
        (drainRun α B t it).2 ++ (drainRun α B t it).1.increment.2.toList) := by
  induction t generalizing it with
  | zero => simp [drainRun]
  | succ t ih =>
    conv_lhs => rw [drainRun]
    rw [ih]
    conv_rhs => rw [drainRun]
    simp [List.append_assoc]

/-- State and release trace after `t` destructive increments from index
0 over an all-live bucket vector: the cursor is at `t`, exactly the
first `t / B` buckets have been freed, in increasing order. -/
theorem drainRun_steps (hB : 0 < B) (l : List (Bucket α))
    (hlive : ∀ b ∈ l, b.isLive = true) (N : Nat) (hN : N ≤ l.length * B) :
    ∀ t, t ≤ N →
      drainRun α B t ⟨0, l⟩ = (⟨t, nullifyBelow (t / B) l⟩, List.range (t / B)) := by
  intro t
  induction t with
  | zero =>
    intro _
    simp [drainRun, nullifyBelow, Nat.zero_div]
  | succ t ih =>
    intro ht
    rw [drainRun_succ, ih (by omega)]
    have hsd := Nat.succ_div t B
    by_cases hdiff : t / B = (t + 1) / B
    · -- no bucket boundary crossed
      have hinc : (DeallocatingVectorRemoveIterator.mk (B := B) t
          (nullifyBelow (t / B) l)).increment =
          (⟨t + 1, nullifyBelow (t / B) l⟩, none) := by
        simp only [DeallocatingVectorRemoveIterator.increment]
        rw [if_neg (not_not_intro hdiff)]
      rw [hinc, ← hdiff]
      simp
    · -- boundary crossed: the vacated bucket is freed
      have hdvd : B ∣ t + 1 := by
        by_contra hc
        rw [if_neg hc] at hsd
        omega
      rw [if_pos hdvd] at hsd
      have told : t / B < l.length := by
        rw [Nat.div_lt_iff_lt_mul hB]
        omega
      obtain ⟨b, hb⟩ : ∃ b, l[t / B]? = some b := by
        rw [List.getElem?_eq_getElem told]
        exact ⟨_, rfl⟩
      have hlb := hlive b (List.getElem?_mem hb)
      cases b with
      | null => simp [Bucket.isLive] at hlb
      | dangling => simp [Bucket.isLive] at hlb
      | live d =>
        have hl1 : (nullifyBelow (t / B) l)[t / B]? = some (Bucket.live d) :=
          (nullifyBelow_getElem?_ge _ _ _ (Nat.le_refl _)).trans hb
        have hinc : (DeallocatingVectorRemoveIterator.mk (B := B) t
            (nullifyBelow (t / B) l)).increment =
            (⟨t + 1, (nullifyBelow (t / B) l).set (t / B) Bucket.null⟩,
              some (t / B)) := by
          simp only [DeallocatingVectorRemoveIterator.increment]
          rw [if_pos hdiff, hl1]
        rw [hinc, hsd]
        have hnull : (nullifyBelow (t / B) l).set (t / B) Bucket.null =
            nullifyBelow (t / B + 1) l := rfl
        rw [hnull]
        simp [List.range_succ]

/-- C1 corrected: a full destructive traversal from `dbegin()` to
`dend()` (that is, `size()` increments) over a container of size `N`
with no previously released blocks frees exactly the first `⌊N / B⌋`
buckets — the completely filled ones — once each, in increasing order;
every bucket from `⌊N / B⌋` on, in particular the final partially
filled block when `N` is not a multiple of `B`, is left untouched
(still allocated). -/
theorem full_drain_releases_only_full_blocks (hB : 0 < B)
    (v : DeallocatingVector α B)
    (hlive : ∀ b ∈ v.bucket_list, b.isLive = true)
    (hcap : v.current_size ≤ v.capacity) :
    v.fullDrain.2 = List.range (v.current_size / B) ∧
    v.fullDrain.1.index = v.current_size ∧
    (∀ j, j < v.current_size / B → v.fullDrain.1.bucket_list[j]? = some Bucket.null) ∧
    (∀ j, v.current_size / B ≤ j → v.fullDrain.1.bucket_list[j]? = v.bucket_list[j]?) := by
  have hN : v.current_size ≤ v.bucket_list.length * B := hcap
  have hrun := drainRun_steps hB v.bucket_list hlive v.current_size hN
    v.current_size (Nat.le_refl _)
  have hfd : v.fullDrain =
      (⟨v.current_size, nullifyBelow (v.current_size / B) v.bucket_list⟩,
        List.range (v.current_size / B)) := hrun
  rw [hfd]
  refine ⟨rfl, rfl, ?_, ?_⟩
  · intro j hj
    have hjl : j < v.bucket_list.length := by
      have hdb : v.current_size / B ≤ v.bucket_list.length := by
        have := Nat.div_le_div_right (c := B) hN
        rwa [Nat.mul_div_cancel _ hB] at this
      omega
    exact nullifyBelow_getElem?_lt _ _ _ hj hjl
  · intro j hj
    exact nullifyBelow_getElem?_ge _ _ _ hj

/-- C1 counterexample: three elements with block size 2 (one full block,
one half-filled).  The full traversal (three increments from `dbegin()`)
frees only bucket 0: the release trace is `[0]` although the container
holds 2 buckets, and the final, partially filled bucket 1 is still live
afterwards — the claim that every block, including the last partial one,
is released is false here. -/
theorem full_drain_counterexample :
    (DeallocatingVector.mk 3 [Bucket.live [some 10, some 20],
        Bucket.live [some 30, none]] : DeallocatingVector Nat 2).fullDrain.2 = [0] ∧
    (DeallocatingVector.mk 3 [Bucket.live [some 10, some 20],
        Bucket.live [some 30, none]] :
      DeallocatingVector Nat 2).bucket_list.length = 2 ∧
    ((DeallocatingVector.mk 3 [Bucket.live [some 10, some 20],
        Bucket.live [some 30, none]] :
      DeallocatingVector Nat 2).fullDrain.1.bucket_list[1]?).map Bucket.isLive =
      some true := by
  decide

/-- C1 witness: four elements with block size 2 (two full blocks): the
full traversal frees buckets 0 and 1, in this order, and the final state
has both bucket slots nulled. -/
theorem full_drain_witness :
    0 < 2 ∧
    (∀ b ∈ (DeallocatingVector.mk 4 [Bucket.live [some 1, some 2],
        Bucket.live [some 3, some 4]] :
        DeallocatingVector Nat 2).bucket_list, b.isLive = true) ∧
    (DeallocatingVector.mk 4 [Bucket.live [some 1, some 2],
        Bucket.live [some 3, some 4]] :
      DeallocatingVector Nat 2).current_size ≤
      (DeallocatingVector.mk 4 [Bucket.live [some 1, some 2],
        Bucket.live [some 3, some 4]] : DeallocatingVector Nat 2).capacity ∧
    ((DeallocatingVector.mk 4 [Bucket.live [some 1, some 2],
        Bucket.live [some 3, some 4]] :
      DeallocatingVector Nat 2).fullDrain.2 = List.range (4 / 2) ∧
      (DeallocatingVector.mk 4 [Bucket.live [some 1, some 2],
          Bucket.live [some 3, some 4]] :
        DeallocatingVector Nat 2).fullDrain.1.index = 4 ∧
      (∀ j, j < 4 / 2 →
        (DeallocatingVector.mk 4 [Bucket.live [some 1, some 2],
            Bucket.live [some 3, some 4]] :
          DeallocatingVector Nat 2).fullDrain.1.bucket_list[j]? = some Bucket.null) ∧
      (∀ j, 4 / 2 ≤ j →
        (DeallocatingVector.mk 4 [Bucket.live [some 1, some 2],
            Bucket.live [some 3, some 4]] :
          DeallocatingVector Nat 2).fullDrain.1.bucket_list[j]? =
          (DeallocatingVector.mk 4 [Bucket.live [some 1, some 2],
            Bucket.live [some 3, some 4]] :
            DeallocatingVector Nat 2).bucket_list[j]?)) :=
  ⟨by decide, by decide, by decide,
    full_drain_releases_only_full_blocks (by decide)
      (DeallocatingVector.mk 4 [Bucket.live [some 1, some 2],
        Bucket.live [some 3, some 4]])
      (by decide) (by decide)⟩

end DrainClaim
